import Mathlib

/-!
Verification development for the 10-K analyzer core (`backend/model.py`).

Python strings are embedded as `List Char` (`Str`): Python `len`, `split`,
`startswith`, `endswith`, `strip` and concatenation are mirrored by the
corresponding list operations.  The external collaborators (the tiktoken
tokenizer, the completion service, and the stdlib JSON parser) are black
boxes and enter as parameters of the embedded functions.
-/

abbrev Str := List Char

/-- The literal delimiter `". "` used by `chunk_text` (period-space). -/
def dotSpace : Str := ['.', ' ']

/-- Python `text.split(". ")` for the fixed two-character separator:
left-to-right, non-overlapping; the empty string splits to `[""]`. -/
def splitDotSpace : Str → List Str
  | [] => [[]]
  | '.' :: ' ' :: rest => [] :: splitDotSpace rest
  | c :: rest =>
    match splitDotSpace rest with
    | [] => [[c]]
    | u :: us => (c :: u) :: us

/-- Loop state of `chunk_text`: the emitted chunks, the running chunk and
its running token count. -/
structure ChunkState where
  chunks : List Str
  current_chunk : Str
  current_tokens : Nat

/-- One iteration of the `for sentence in sentences` loop of `chunk_text`
(`model.py` lines 59-68), parametrised by the tokenizer `tok` and the
budget `max_tokens` (`self.max_tokens`). -/
def chunkStep (tok : Str → Nat) (max_tokens : Nat) (st : ChunkState) (sentence : Str) :
    ChunkState :=
  let sentence_tokens := tok (sentence ++ dotSpace)
  if max_tokens < st.current_tokens + sentence_tokens then
    ⟨st.chunks ++ [st.current_chunk], sentence ++ dotSpace, sentence_tokens⟩
  else
    ⟨st.chunks, st.current_chunk ++ sentence ++ dotSpace, st.current_tokens + sentence_tokens⟩

/-- The final `if current_chunk: chunks.append(current_chunk)` of
`chunk_text` (`model.py` lines 70-71); Python string truthiness is
non-emptiness. -/
def chunkFinal (st : ChunkState) : List Str :=
  if st.current_chunk = [] then st.chunks else st.chunks ++ [st.current_chunk]

/-- `TenKAnalyzer.chunk_text` (`model.py` lines 51-73), with the tokenizer
`tok` (`self.tokenizer.encode` composed with `len`) and the budget
`max_tokens` abstracted as parameters. -/
def chunk_text (tok : Str → Nat) (max_tokens : Nat) (text : Str) : List Str :=
  chunkFinal ((splitDotSpace text).foldl (chunkStep tok max_tokens) ⟨[], [], 0⟩)

theorem splitDotSpace_ne_nil : ∀ s : Str, splitDotSpace s ≠ [] := by
  intro s
  induction s using splitDotSpace.induct with
  | case1 => simp [splitDotSpace]
  | case2 rest ih => simp [splitDotSpace]
  | case3 c rest h hnil ih => exact absurd hnil ih
  | case4 c rest h u us hrec ih =>
    rw [splitDotSpace.eq_3 c rest h, hrec]
    simp

theorem flatten_map_splitDotSpace (s : Str) :
    ((splitDotSpace s).map (· ++ dotSpace)).flatten = s ++ dotSpace := by
  induction s using splitDotSpace.induct with
  | case1 => simp [splitDotSpace]
  | case2 rest ih =>
    rw [splitDotSpace.eq_2, List.map_cons, List.flatten_cons, ih]
    simp [dotSpace]
  | case3 c rest h hnil ih => exact absurd hnil (splitDotSpace_ne_nil rest)
  | case4 c rest h u us hrec ih =>
    rw [hrec] at ih
    rw [splitDotSpace.eq_3 c rest h, hrec]
    simp only [List.map_cons, List.flatten_cons] at ih ⊢
    simp only [List.cons_append, List.append_assoc] at ih ⊢
    rw [ih]

theorem foldl_chunkStep_flatten (tok : Str → Nat) (B : Nat) :
    ∀ (us : List Str) (st : ChunkState),
      ((us.foldl (chunkStep tok B) st).chunks).flatten ++
          (us.foldl (chunkStep tok B) st).current_chunk =
        st.chunks.flatten ++ st.current_chunk ++ (us.map (· ++ dotSpace)).flatten := by
  intro us
  induction us with
  | nil => intro st; simp
  | cons v vs ih =>
    intro st
    rw [List.foldl_cons, ih]
    by_cases hc : B < st.current_tokens + tok (v ++ dotSpace)
    · simp [chunkStep, hc, List.append_assoc]
    · simp [chunkStep, hc, List.append_assoc]

theorem flatten_chunkFinal (st : ChunkState) :
    (chunkFinal st).flatten = st.chunks.flatten ++ st.current_chunk := by
  by_cases h : st.current_chunk = []
  · simp [chunkFinal, h]
  · simp [chunkFinal, h]

/-- The character-count tokenizer used to instantiate the abstract
tokenizer parameter in concrete witnesses and counterexamples. -/
def tokLen (s : Str) : Nat := s.length

/-- C1. The claim as stated fails: `chunk_text` appends the delimiter
after every sentence-like unit, the last one included, so concatenating
the chunks of the one-unit text `"A"` yields `"A. "`, not `"A"`. -/
theorem c1_counterexample :
    (chunk_text tokLen 8000 ("A".toList)).flatten ≠ "A".toList := by
  decide

/-- C1 (amended). Concatenating the chunks returned by `chunk_text`
reconstructs the normalized input text followed by one extra trailing
`". "` delimiter: the flattening equals `text ++ ". "` for every
tokenizer, budget and input; no characters of the input are lost. -/
theorem c1_amended (tok : Str → Nat) (B : Nat) (text : Str) :
    (chunk_text tok B text).flatten = text ++ dotSpace := by
  rw [chunk_text, flatten_chunkFinal, foldl_chunkStep_flatten]
  simp [flatten_map_splitDotSpace]

theorem foldl_chunkStep_current_ne_nil (tok : Str → Nat) (B : Nat) :
    ∀ (us : List Str) (st : ChunkState),
      (st.current_chunk ≠ [] ∨ us ≠ []) →
      (us.foldl (chunkStep tok B) st).current_chunk ≠ [] := by
  intro us
  induction us with
  | nil =>
    intro st h
    rcases h with h | h
    · simpa using h
    · exact absurd rfl h
  | cons v vs ih =>
    intro st _
    rw [List.foldl_cons]
    apply ih
    left
    by_cases hc : B < st.current_tokens + tok (v ++ dotSpace)
    · simp only [chunkStep]
      rw [if_pos hc]
      simp [dotSpace]
    · simp only [chunkStep]
      rw [if_neg hc]
      simp [dotSpace]

theorem chunk_text_ne_nil (tok : Str → Nat) (B : Nat) (text : Str) :
    chunk_text tok B text ≠ [] := by
  have h := foldl_chunkStep_current_ne_nil tok B (splitDotSpace text) ⟨[], [], 0⟩
    (Or.inr (splitDotSpace_ne_nil text))
  rw [chunk_text, chunkFinal, if_neg h]
  simp

/-- C4. The exception clause of the claim fails: on the empty input the
chunker does not return the empty sequence (Python `"".split(". ")` is
`[""]`, and that single empty unit still receives the `". "` delimiter). -/
theorem c4_counterexample :
    chunk_text tokLen 8000 [] ≠ [] := by
  decide

/-- C4 (amended). `chunk_text` returns an ordered, non-empty sequence of
chunks for every input, the empty string included; on the empty input,
whenever the delimiter itself fits the budget, the result is the single
chunk `". "` rather than the empty sequence. -/
theorem c4_amended :
    (∀ (tok : Str → Nat) (B : Nat) (text : Str), chunk_text tok B text ≠ []) ∧
    (∀ (tok : Str → Nat) (B : Nat), tok dotSpace ≤ B →
      chunk_text tok B [] = [dotSpace]) := by
  constructor
  · exact chunk_text_ne_nil
  · intro tok B h
    have hnil : ([] : Str) ++ dotSpace = dotSpace := rfl
    have hcond : ¬ B < 0 + tok (([] : Str) ++ dotSpace) := by
      rw [hnil]; omega
    rw [chunk_text]
    show chunkFinal (chunkStep tok B ⟨[], [], 0⟩ []) = [dotSpace]
    rw [chunkStep]
    simp only [hcond, if_false]
    rw [chunkFinal]
    simp [dotSpace]

/-- C4 witness: the amended statement evaluated with the character-count
tokenizer and the budget 8000 from the source. -/
theorem c4_witness :
    chunk_text tokLen 8000 ("Hi".toList) ≠ [] ∧
    chunk_text tokLen 8000 [] = [dotSpace] :=
  ⟨c4_amended.1 tokLen 8000 ("Hi".toList), c4_amended.2 tokLen 8000 (by decide)⟩

theorem chunkFinal_foldl_extends (tok : Str → Nat) (B : Nat) :
    ∀ (us : List Str) (st : ChunkState),
      ∃ t : List Str, chunkFinal (us.foldl (chunkStep tok B) st) = st.chunks ++ t := by
  intro us
  induction us with
  | nil =>
    intro st
    by_cases h : st.current_chunk = []
    · exact ⟨[], by simp [chunkFinal, h]⟩
    · exact ⟨[st.current_chunk], by simp [chunkFinal, h]⟩
  | cons v vs ih =>
    intro st
    rw [List.foldl_cons]
    by_cases hc : B < st.current_tokens + tok (v ++ dotSpace)
    · obtain ⟨t, ht⟩ := ih (chunkStep tok B st v)
      refine ⟨[st.current_chunk] ++ t, ?_⟩
      rw [ht]
      simp only [chunkStep]
      rw [if_pos hc]
      simp
    · obtain ⟨t, ht⟩ := ih (chunkStep tok B st v)
      refine ⟨t, ?_⟩
      rw [ht]
      simp only [chunkStep]
      rw [if_neg hc]

/-- C10. If the very first sentence-like unit of a non-empty text already
exceeds the budget, `chunk_text` first emits the empty running chunk and
then the own chunk of the oversized unit: the output starts with the empty
string, so the chunk sequence can contain an empty chunk. -/
theorem c10_empty_first_chunk (tok : Str → Nat) (B : Nat) (text : Str)
    (hne : text ≠ [])
    (hbig : B < tok ((splitDotSpace text).headI ++ dotSpace)) :
    ∃ rest : List Str,
      chunk_text tok B text = [] :: ((splitDotSpace text).headI ++ dotSpace) :: rest := by
  rcases hsplit : splitDotSpace text with _ | ⟨u, us⟩
  · exact absurd hsplit (splitDotSpace_ne_nil text)
  rw [hsplit] at hbig
  simp only [List.headI] at hbig ⊢
  rw [chunk_text, hsplit, List.foldl_cons]
  have hstep : chunkStep tok B ⟨[], [], 0⟩ u = ⟨[[]], u ++ dotSpace, tok (u ++ dotSpace)⟩ := by
    simp only [chunkStep]
    rw [if_pos (by simpa using hbig)]
    rfl
  rw [hstep]
  cases us with
  | nil =>
    refine ⟨[], ?_⟩
    rw [List.foldl_nil, chunkFinal, if_neg (by simp [dotSpace])]
    simp
  | cons v vs =>
    rw [List.foldl_cons]
    have hc : B < tok (u ++ dotSpace) + tok (v ++ dotSpace) := by omega
    have hstep2 : chunkStep tok B ⟨[[]], u ++ dotSpace, tok (u ++ dotSpace)⟩ v =
        ⟨[[], u ++ dotSpace], v ++ dotSpace, tok (v ++ dotSpace)⟩ := by
      simp only [chunkStep]
      rw [if_pos hc]
      simp
    rw [hstep2]
    obtain ⟨t, ht⟩ := chunkFinal_foldl_extends tok B vs ⟨[[], u ++ dotSpace], v ++ dotSpace, tok (v ++ dotSpace)⟩
    exact ⟨t, by rw [ht]; simp⟩

/-- C10 witness: with the character-count tokenizer and budget 1, the
five-character unit `"Hello"` is oversized and the chunker emits the
empty chunk first. -/
theorem c10_witness :
    ("Hello".toList ≠ ([] : Str) ∧
      1 < tokLen (((splitDotSpace ("Hello".toList))).headI ++ dotSpace)) ∧
    ∃ rest : List Str,
      chunk_text tokLen 1 ("Hello".toList) =
        [] :: ((splitDotSpace ("Hello".toList)).headI ++ dotSpace) :: rest :=
  ⟨⟨by decide, by decide⟩,
    c10_empty_first_chunk tokLen 1 ("Hello".toList) (by decide) (by decide)⟩

/-- C5. The expected outputs of the claim are wrong: the final unit `"C."` of
`"A. B. C."` also receives the `". "` delimiter, so the big-budget chunk
is `"A. B. C.. "`, not `"A. B. C. "` (character-count tokenizer, budget
100, ample for all three units). -/
theorem c5_counterexample :
    chunk_text tokLen 100 ("A. B. C.".toList) ≠ [("A. B. C. ".toList)] := by
  decide

/-- C5 (amended). Chunking `"A. B. C."` with a budget at least the total
token count of the three delimited units yields the single chunk
`"A. B. C.. "`; with a budget that fits one unit but no two consecutive
units, it yields the three chunks `"A. "`, `"B. "`, `"C.. "` in order
(the trailing unit `"C."` gains a second period from the reinserted
delimiter). -/
theorem c5_amended :
    (∀ (tok : Str → Nat) (B : Nat),
      tok ("A".toList ++ dotSpace) + tok ("B".toList ++ dotSpace) +
          tok ("C.".toList ++ dotSpace) ≤ B →
      chunk_text tok B ("A. B. C.".toList) = [("A. B. C.. ".toList)]) ∧
    (∀ (tok : Str → Nat) (B : Nat),
      tok ("A".toList ++ dotSpace) ≤ B →
      B < tok ("A".toList ++ dotSpace) + tok ("B".toList ++ dotSpace) →
      B < tok ("B".toList ++ dotSpace) + tok ("C.".toList ++ dotSpace) →
      chunk_text tok B ("A. B. C.".toList) =
        [("A. ".toList), ("B. ".toList), ("C.. ".toList)]) := by
  have hs : splitDotSpace ("A. B. C.".toList) = [("A".toList), ("B".toList), ("C.".toList)] := by
    decide
  constructor
  · intro tok B h
    have s1 : chunkStep tok B ⟨[], [], 0⟩ ("A".toList) =
        ⟨[], "A. ".toList, 0 + tok ("A".toList ++ dotSpace)⟩ := by
      simp only [chunkStep]
      rw [if_neg (show ¬ B < 0 + tok ("A".toList ++ dotSpace) by omega)]
      rfl
    have s2 : chunkStep tok B ⟨[], "A. ".toList, 0 + tok ("A".toList ++ dotSpace)⟩ ("B".toList) =
        ⟨[], "A. B. ".toList,
          0 + tok ("A".toList ++ dotSpace) + tok ("B".toList ++ dotSpace)⟩ := by
      simp only [chunkStep]
      rw [if_neg (show ¬ B < 0 + tok ("A".toList ++ dotSpace) + tok ("B".toList ++ dotSpace)
        by omega)]
      rfl
    have s3 : chunkStep tok B
        ⟨[], "A. B. ".toList,
          0 + tok ("A".toList ++ dotSpace) + tok ("B".toList ++ dotSpace)⟩ ("C.".toList) =
        ⟨[], "A. B. C.. ".toList,
          0 + tok ("A".toList ++ dotSpace) + tok ("B".toList ++ dotSpace) +
            tok ("C.".toList ++ dotSpace)⟩ := by
      simp only [chunkStep]
      rw [if_neg (show ¬ B < 0 + tok ("A".toList ++ dotSpace) + tok ("B".toList ++ dotSpace) +
        tok ("C.".toList ++ dotSpace) by omega)]
      rfl
    rw [chunk_text, hs, List.foldl_cons, s1, List.foldl_cons, s2, List.foldl_cons, s3,
      List.foldl_nil, chunkFinal, if_neg (show ¬ ("A. B. C.. ".toList : Str) = [] by decide)]
    rfl
  · intro tok B h1 h12 h23
    have s1 : chunkStep tok B ⟨[], [], 0⟩ ("A".toList) =
        ⟨[], "A. ".toList, 0 + tok ("A".toList ++ dotSpace)⟩ := by
      simp only [chunkStep]
      rw [if_neg (show ¬ B < 0 + tok ("A".toList ++ dotSpace) by omega)]
      rfl
    have s2 : chunkStep tok B ⟨[], "A. ".toList, 0 + tok ("A".toList ++ dotSpace)⟩ ("B".toList) =
        ⟨["A. ".toList], "B. ".toList, tok ("B".toList ++ dotSpace)⟩ := by
      simp only [chunkStep]
      rw [if_pos (show B < 0 + tok ("A".toList ++ dotSpace) + tok ("B".toList ++ dotSpace)
        by omega)]
      rfl
    have s3 : chunkStep tok B ⟨["A. ".toList], "B. ".toList, tok ("B".toList ++ dotSpace)⟩
        ("C.".toList) =
        ⟨["A. ".toList, "B. ".toList], "C.. ".toList, tok ("C.".toList ++ dotSpace)⟩ := by
      simp only [chunkStep]
      rw [if_pos (show B < tok ("B".toList ++ dotSpace) + tok ("C.".toList ++ dotSpace)
        by omega)]
      rfl
    rw [chunk_text, hs, List.foldl_cons, s1, List.foldl_cons, s2, List.foldl_cons, s3,
      List.foldl_nil, chunkFinal, if_neg (show ¬ ("C.. ".toList : Str) = [] by decide)]
    rfl

/-- C5 witness: both amended scenarios evaluated with the character-count
tokenizer, budgets 100 and 4. -/
theorem c5_witness :
    (tokLen ("A".toList ++ dotSpace) + tokLen ("B".toList ++ dotSpace) +
        tokLen ("C.".toList ++ dotSpace) ≤ 100 ∧
      chunk_text tokLen 100 ("A. B. C.".toList) = [("A. B. C.. ".toList)]) ∧
    (tokLen ("A".toList ++ dotSpace) ≤ 4 ∧
      chunk_text tokLen 4 ("A. B. C.".toList) =
        [("A. ".toList), ("B. ".toList), ("C.. ".toList)]) :=
  ⟨⟨by decide, c5_amended.1 tokLen 100 (by decide)⟩,
    ⟨by decide, c5_amended.2 tokLen 4 (by decide) (by decide) (by decide)⟩⟩

/-- Loop state of `chunk_text` viewed at the granularity of sentence-like
units: the emitted chunks as lists of their units, the units of the
running chunk, and its running token count. -/
structure UnitState where
  groups : List (List Str)
  current_units : List Str
  current_tokens : Nat

/-- The loop body of `chunk_text` at unit granularity: same branch
condition as `chunkStep`, recording which units compose each chunk. -/
def unitStep (tok : Str → Nat) (max_tokens : Nat) (st : UnitState) (sentence : Str) :
    UnitState :=
  let sentence_tokens := tok (sentence ++ dotSpace)
  if max_tokens < st.current_tokens + sentence_tokens then
    ⟨st.groups ++ [st.current_units], [sentence], sentence_tokens⟩
  else
    ⟨st.groups, st.current_units ++ [sentence], st.current_tokens + sentence_tokens⟩

/-- Final flush at unit granularity, mirroring `chunkFinal`. -/
def unitsFinal (st : UnitState) : List (List Str) :=
  if st.current_units = [] then st.groups else st.groups ++ [st.current_units]

/-- The chunks of `chunk_text`, each given as the list of its
sentence-like units. -/
def chunk_units (tok : Str → Nat) (max_tokens : Nat) (units : List Str) : List (List Str) :=
  unitsFinal (units.foldl (unitStep tok max_tokens) ⟨[], [], 0⟩)

/-- The text of a chunk from its units: each unit followed by the
reinserted `". "` delimiter. -/
def groupText (g : List Str) : Str := (g.map (· ++ dotSpace)).flatten

/-- The cumulative estimated token count of a chunk: the sum over its
units of the token count of the unit text plus the delimiter. -/
def groupTokens (tok : Str → Nat) (g : List Str) : Nat :=
  (g.map (fun u => tok (u ++ dotSpace))).sum

theorem groupText_eq_nil_iff (g : List Str) : groupText g = [] ↔ g = [] := by
  cases g with
  | nil => simp [groupText]
  | cons u gs => simp [groupText, dotSpace]

theorem foldl_step_corr (tok : Str → Nat) (B : Nat) :
    ∀ (us : List Str) (st : ChunkState) (ust : UnitState),
      st.chunks = ust.groups.map groupText →
      st.current_chunk = groupText ust.current_units →
      st.current_tokens = ust.current_tokens →
      (us.foldl (chunkStep tok B) st).chunks =
          ((us.foldl (unitStep tok B) ust).groups).map groupText ∧
        (us.foldl (chunkStep tok B) st).current_chunk =
          groupText ((us.foldl (unitStep tok B) ust).current_units) ∧
        (us.foldl (chunkStep tok B) st).current_tokens =
          (us.foldl (unitStep tok B) ust).current_tokens := by
  intro us
  induction us with
  | nil => intro st ust h1 h2 h3; exact ⟨h1, h2, h3⟩
  | cons v vs ih =>
    intro st ust h1 h2 h3
    rw [List.foldl_cons, List.foldl_cons]
    by_cases hc : B < ust.current_tokens + tok (v ++ dotSpace)
    · apply ih
      · simp only [chunkStep, unitStep]
        rw [if_pos (by rw [h3]; exact hc), if_pos hc]
        simp [h1, h2, groupText]
      · simp only [chunkStep, unitStep]
        rw [if_pos (by rw [h3]; exact hc), if_pos hc]
        simp [groupText]
      · simp only [chunkStep, unitStep]
        rw [if_pos (by rw [h3]; exact hc), if_pos hc]
    · apply ih
      · simp only [chunkStep, unitStep]
        rw [if_neg (by rw [h3]; exact hc), if_neg hc]
        exact h1
      · simp only [chunkStep, unitStep]
        rw [if_neg (by rw [h3]; exact hc), if_neg hc]
        simp [h2, groupText]
      · simp only [chunkStep, unitStep]
        rw [if_neg (by rw [h3]; exact hc), if_neg hc]
        simp [h3]

theorem chunk_text_eq_map_groupText (tok : Str → Nat) (B : Nat) (text : Str) :
    chunk_text tok B text = (chunk_units tok B (splitDotSpace text)).map groupText := by
  obtain ⟨h1, h2, h3⟩ := foldl_step_corr tok B (splitDotSpace text)
    ⟨[], [], 0⟩ ⟨[], [], 0⟩ (by simp) (by simp [groupText]) rfl
  rw [chunk_text, chunk_units, chunkFinal, unitsFinal]
  by_cases hcur : ((splitDotSpace text).foldl (unitStep tok B) ⟨[], [], 0⟩).current_units = []
  · rw [if_pos (by rw [h2, hcur]; simp [groupText]), if_pos hcur, h1]
  · rw [if_neg (by rw [h2]; exact fun hn => hcur ((groupText_eq_nil_iff _).mp hn)),
      if_neg hcur, h1, h2]
    simp

theorem foldl_unitStep_inv (tok : Str → Nat) (B : Nat) :
    ∀ (us : List Str) (ust : UnitState),
      (∀ g ∈ ust.groups, 1 < g.length → groupTokens tok g ≤ B) →
      ust.current_tokens = groupTokens tok ust.current_units →
      (1 < ust.current_units.length → ust.current_tokens ≤ B) →
      (∀ g ∈ (us.foldl (unitStep tok B) ust).groups, 1 < g.length → groupTokens tok g ≤ B) ∧
        (us.foldl (unitStep tok B) ust).current_tokens =
          groupTokens tok (us.foldl (unitStep tok B) ust).current_units ∧
        (1 < (us.foldl (unitStep tok B) ust).current_units.length →
          (us.foldl (unitStep tok B) ust).current_tokens ≤ B) := by
  intro us
  induction us with
  | nil => intro ust h1 h2 h3; exact ⟨h1, h2, h3⟩
  | cons v vs ih =>
    intro ust h1 h2 h3
    rw [List.foldl_cons]
    by_cases hc : B < ust.current_tokens + tok (v ++ dotSpace)
    · apply ih
      · simp only [unitStep]
        rw [if_pos hc]
        intro g hg hlen
        rcases List.mem_append.mp hg with hg | hg
        · exact h1 g hg hlen
        · rw [List.mem_singleton.mp hg] at hlen ⊢
          rw [← h2]
          exact h3 hlen
      · simp only [unitStep]
        rw [if_pos hc]
        simp [groupTokens]
      · simp only [unitStep]
        rw [if_pos hc]
        intro hlen
        simp at hlen
    · apply ih
      · simp only [unitStep]
        rw [if_neg hc]
        exact h1
      · simp only [unitStep]
        rw [if_neg hc]
        simp [groupTokens, h2]
      · simp only [unitStep]
        rw [if_neg hc]
        intro _
        show ust.current_tokens + tok (v ++ dotSpace) ≤ B
        omega

theorem unitsFinal_foldl_extends (tok : Str → Nat) (B : Nat) :
    ∀ (us : List Str) (ust : UnitState),
      ∃ t : List (List Str), unitsFinal (us.foldl (unitStep tok B) ust) = ust.groups ++ t := by
  intro us
  induction us with
  | nil =>
    intro ust
    by_cases h : ust.current_units = []
    · exact ⟨[], by simp [unitsFinal, h]⟩
    · exact ⟨[ust.current_units], by simp [unitsFinal, h]⟩
  | cons v vs ih =>
    intro ust
    rw [List.foldl_cons]
    obtain ⟨t, ht⟩ := ih (unitStep tok B ust v)
    by_cases hc : B < ust.current_tokens + tok (v ++ dotSpace)
    · refine ⟨[ust.current_units] ++ t, ?_⟩
      rw [ht]
      simp only [unitStep]
      rw [if_pos hc]
      simp
    · refine ⟨t, ?_⟩
      rw [ht]
      simp only [unitStep]
      rw [if_neg hc]

theorem oversized_current_emitted (tok : Str → Nat) (B : Nat) :
    ∀ (us : List Str) (ust : UnitState),
      B < ust.current_tokens → ust.current_units ≠ [] →
      ust.current_units ∈ unitsFinal (us.foldl (unitStep tok B) ust) := by
  intro us
  induction us with
  | nil =>
    intro ust _ hne
    rw [List.foldl_nil, unitsFinal, if_neg hne]
    simp
  | cons v vs ih =>
    intro ust hbig hne
    rw [List.foldl_cons]
    have hc : B < ust.current_tokens + tok (v ++ dotSpace) := by omega
    have hstep : unitStep tok B ust v =
        ⟨ust.groups ++ [ust.current_units], [v], tok (v ++ dotSpace)⟩ := by
      simp only [unitStep]
      rw [if_pos hc]
    obtain ⟨t, ht⟩ := unitsFinal_foldl_extends tok B vs (unitStep tok B ust v)
    rw [ht, hstep]
    simp

theorem oversized_unit_alone (tok : Str → Nat) (B : Nat) :
    ∀ (us : List Str) (ust : UnitState) (u : Str),
      u ∈ us → B < tok (u ++ dotSpace) →
      [u] ∈ unitsFinal (us.foldl (unitStep tok B) ust) := by
  intro us
  induction us with
  | nil => intro ust u hu; exact absurd hu (List.not_mem_nil u)
  | cons v vs ih =>
    intro ust u hu hbig
    rw [List.foldl_cons]
    rcases List.mem_cons.mp hu with rfl | hu
    · have hc : B < ust.current_tokens + tok (u ++ dotSpace) := by omega
      have hstep : unitStep tok B ust u =
          ⟨ust.groups ++ [ust.current_units], [u], tok (u ++ dotSpace)⟩ := by
        simp only [unitStep]
        rw [if_pos hc]
      rw [hstep]
      exact oversized_current_emitted tok B vs _ (by simpa using hbig) (by simp)
    · exact ih (unitStep tok B ust v) u hu hbig

/-- C3. Chunk token budget: the chunks of `chunk_text` are exactly the
texts of the unit groups computed by `chunk_units`; every chunk made of
more than one sentence-like unit has cumulative token count (unit plus
delimiter, summed) at most the budget; and every unit whose own
delimited token count exceeds the budget ends up alone in its own chunk,
never split. Only such one-unit chunks may exceed the budget. -/
theorem c3_chunk_budget (tok : Str → Nat) (B : Nat) (text : Str) :
    chunk_text tok B text = (chunk_units tok B (splitDotSpace text)).map groupText ∧
    (∀ g ∈ chunk_units tok B (splitDotSpace text), 1 < g.length → groupTokens tok g ≤ B) ∧
    (∀ u ∈ splitDotSpace text, B < tok (u ++ dotSpace) →
      [u] ∈ chunk_units tok B (splitDotSpace text)) := by
  refine ⟨chunk_text_eq_map_groupText tok B text, ?_, ?_⟩
  · obtain ⟨h1, h2, h3⟩ := foldl_unitStep_inv tok B (splitDotSpace text) ⟨[], [], 0⟩
      (by simp) (by simp [groupTokens]) (by simp)
    intro g hg hlen
    rw [chunk_units, unitsFinal] at hg
    by_cases hcur : ((splitDotSpace text).foldl (unitStep tok B) ⟨[], [], 0⟩).current_units = []
    · rw [if_pos hcur] at hg
      exact h1 g hg hlen
    · rw [if_neg hcur] at hg
      rcases List.mem_append.mp hg with hg | hg
      · exact h1 g hg hlen
      · rw [List.mem_singleton.mp hg] at hlen ⊢
        rw [← h2]
        exact h3 hlen
  · intro u hu hbig
    exact oversized_unit_alone tok B (splitDotSpace text) ⟨[], [], 0⟩ u hu hbig

/-- C3 witness: with the character-count tokenizer, budget 10 groups
`"Hi. Yo. Zz."` into the two-unit chunk `["Hi", "Yo"]` whose token sum is
within budget, and budget 3 places the oversized unit `"Hello there"` of
`"Hello there. Hi."` alone into its own chunk. -/
theorem c3_witness :
    groupTokens tokLen [("Hi".toList), ("Yo".toList)] ≤ 10 ∧
    [("Hello there".toList)] ∈ chunk_units tokLen 3 (splitDotSpace ("Hello there. Hi.".toList)) :=
  ⟨(c3_chunk_budget tokLen 10 ("Hi. Yo. Zz.".toList)).2.1
      [("Hi".toList), ("Yo".toList)] (by decide) (by decide),
    (c3_chunk_budget tokLen 3 ("Hello there. Hi.".toList)).2.2
      ("Hello there".toList) (by decide) (by decide)⟩

/-- Order-preserving deduplication with an accumulator of already seen
elements: Python `list(dict.fromkeys(l))` keeps the first occurrence of
each distinct element. -/
def pyDedupAux [DecidableEq α] (seen : List α) : List α → List α
  | [] => []
  | x :: xs => if x ∈ seen then pyDedupAux seen xs else x :: pyDedupAux (x :: seen) xs

/-- Python `list(dict.fromkeys(l))` (`model.py` line 157). -/
def pyDedup [DecidableEq α] (l : List α) : List α := pyDedupAux [] l

/-- The sort key of `sorted(..., key=len)` (`model.py` line 160): compare
strings by character count. -/
def lenLE (a b : Str) : Prop := a.length ≤ b.length

instance : DecidableRel lenLE := fun a b => decidable_of_iff (a.length ≤ b.length) Iff.rfl

instance : IsTrans Str lenLE := ⟨fun _ _ _ hab hbc => Nat.le_trans hab hbc⟩

instance : IsTotal Str lenLE := ⟨fun a b => Nat.le_total a.length b.length⟩

/-- The per-field body of `consolidate_analyses` (`model.py` lines
155-164): order-preserving dedup, stable sort by length ascending
(the Python `sorted` builtin is a stable sort; `List.insertionSort` is
the stable sort of the same total preorder), truncation to 10, and the
subsequent source truncation to 7 guarded by `len > 10`. -/
def consolidateField (l : List Str) : List Str :=
  let deduped := pyDedup l
  let sorted10 := (List.insertionSort lenLE deduped).take 10
  if 10 < sorted10.length then sorted10.take 7 else sorted10

/-- The four canonical fields of an analysis record, every one an ordered
sequence of insight strings (`model.py` lines 112-117 and 141-146). -/
structure AnalysisRecord where
  key_financial_metrics : List Str
  risks_and_challenges : List Str
  strategic_initiatives : List Str
  significant_changes : List Str
deriving DecidableEq

/-- `TenKAnalyzer.consolidate_analyses` (`model.py` lines 139-166): per
canonical field, concatenate the field across the records in input
order, then dedup, sort by length, truncate.  For well-shaped records the
membership guard `if key in analysis` of the source always holds, so the
concatenation ranges over every record. -/
def consolidate_analyses (analyses : List AnalysisRecord) : AnalysisRecord :=
  ⟨consolidateField (analyses.flatMap (·.key_financial_metrics)),
    consolidateField (analyses.flatMap (·.risks_and_challenges)),
    consolidateField (analyses.flatMap (·.strategic_initiatives)),
    consolidateField (analyses.flatMap (·.significant_changes))⟩

theorem mem_pyDedupAux [DecidableEq α] :
    ∀ (l : List α) (seen : List α) (x : α), x ∈ pyDedupAux seen l → x ∈ l := by
  intro l
  induction l with
  | nil => intro seen x h; simpa [pyDedupAux] using h
  | cons y ys ih =>
    intro seen x h
    rw [pyDedupAux] at h
    by_cases hy : y ∈ seen
    · rw [if_pos hy] at h
      exact List.mem_cons_of_mem y (ih seen x h)
    · rw [if_neg hy] at h
      rcases List.mem_cons.mp h with rfl | h
      · exact List.mem_cons_self x ys
      · exact List.mem_cons_of_mem y (ih (y :: seen) x h)

theorem mem_pyDedupAux_not_seen [DecidableEq α] :
    ∀ (l : List α) (seen : List α) (x : α), x ∈ pyDedupAux seen l → x ∉ seen := by
  intro l
  induction l with
  | nil => intro seen x h; simp [pyDedupAux] at h
  | cons y ys ih =>
    intro seen x h
    rw [pyDedupAux] at h
    by_cases hy : y ∈ seen
    · rw [if_pos hy] at h
      exact ih seen x h
    · rw [if_neg hy] at h
      rcases List.mem_cons.mp h with rfl | h
      · exact hy
      · intro hx
        exact ih (y :: seen) x h (List.mem_cons_of_mem y hx)

theorem pyDedupAux_nodup [DecidableEq α] :
    ∀ (l : List α) (seen : List α), (pyDedupAux seen l).Nodup := by
  intro l
  induction l with
  | nil => intro seen; simp [pyDedupAux]
  | cons y ys ih =>
    intro seen
    rw [pyDedupAux]
    by_cases hy : y ∈ seen
    · rw [if_pos hy]
      exact ih seen
    · rw [if_neg hy]
      refine List.nodup_cons.mpr ⟨?_, ih (y :: seen)⟩
      intro hmem
      exact mem_pyDedupAux_not_seen ys (y :: seen) y hmem (List.mem_cons_self y seen)

theorem pyDedup_nodup [DecidableEq α] (l : List α) : (pyDedup l).Nodup :=
  pyDedupAux_nodup l []

theorem mem_pyDedup [DecidableEq α] {l : List α} {x : α} (h : x ∈ pyDedup l) : x ∈ l :=
  mem_pyDedupAux l [] x h

theorem pyDedupAux_eq_self [DecidableEq α] :
    ∀ (l : List α) (seen : List α), l.Nodup → (∀ x ∈ l, x ∉ seen) → pyDedupAux seen l = l := by
  intro l
  induction l with
  | nil => intro seen _ _; rfl
  | cons y ys ih =>
    intro seen hnd hdisj
    rw [pyDedupAux, if_neg (hdisj y (List.mem_cons_self y ys))]
    congr 1
    apply ih (y :: seen) (List.nodup_cons.mp hnd).2
    intro x hx
    rcases List.nodup_cons.mp hnd with ⟨hy, _⟩
    intro hmem
    rcases List.mem_cons.mp hmem with rfl | hmem
    · exact hy hx
    · exact hdisj x (List.mem_cons_of_mem y hx) hmem

theorem pyDedup_eq_self [DecidableEq α] {l : List α} (h : l.Nodup) : pyDedup l = l :=
  pyDedupAux_eq_self l [] h (by simp)

theorem consolidateField_eq (l : List Str) :
    consolidateField l = (List.insertionSort lenLE (pyDedup l)).take 10 := by
  rw [consolidateField]
  have hlen : ((List.insertionSort lenLE (pyDedup l)).take 10).length ≤ 10 := by
    rw [List.length_take]
    omega
  rw [if_neg (by omega)]

/-- C9. Dead second truncation: after `[:10]` the per-field list can
never have more than 10 entries, so the source branch `if len(...) > 10:
[:7]` is unreachable for every input and `consolidateField`
always returns the `[:10]` stage unchanged. -/
theorem c9_dead_truncation (l : List Str) :
    ((List.insertionSort lenLE (pyDedup l)).take 10).length ≤ 10 ∧
    consolidateField l = (List.insertionSort lenLE (pyDedup l)).take 10 := by
  constructor
  · rw [List.length_take]
    omega
  · exact consolidateField_eq l

theorem mem_consolidateField {l : List Str} {s : Str} (h : s ∈ consolidateField l) : s ∈ l := by
  rw [consolidateField_eq] at h
  have h1 : s ∈ List.insertionSort lenLE (pyDedup l) := (List.take_sublist 10 _).mem h
  exact mem_pyDedup ((List.mem_insertionSort lenLE).mp h1)

theorem consolidateField_sorted (l : List Str) : (consolidateField l).Pairwise lenLE := by
  rw [consolidateField_eq]
  exact (List.sorted_insertionSort lenLE (pyDedup l)).sublist (List.take_sublist 10 _)

theorem consolidateField_length_le (l : List Str) : (consolidateField l).length ≤ 10 := by
  rw [consolidateField_eq, List.length_take]
  omega

theorem insertionSort_filter_length (d : List Str) (k : Nat) :
    (List.insertionSort lenLE d).filter (fun s => s.length == k) =
      d.filter (fun s => s.length == k) := by
  have hpw : (d.filter (fun s => s.length == k)).Pairwise lenLE := by
    apply List.pairwise_of_forall_mem_list
    intro a ha b hb
    have hak : a.length = k := by simpa using List.of_mem_filter ha
    have hbk : b.length = k := by simpa using List.of_mem_filter hb
    show a.length ≤ b.length
    omega
  have hsub : List.Sublist (d.filter (fun s => s.length == k)) (List.insertionSort lenLE d) :=
    List.sublist_insertionSort hpw (List.filter_sublist d)
  have hid : (d.filter (fun s => s.length == k)).filter (fun s => s.length == k) =
      d.filter (fun s => s.length == k) := by
    apply List.filter_eq_self.mpr
    intro a ha
    simpa using List.of_mem_filter ha
  have hsub2 := hsub.filter (fun s => s.length == k)
  rw [hid] at hsub2
  have hperm : List.Perm ((List.insertionSort lenLE d).filter (fun s => s.length == k))
      (d.filter (fun s => s.length == k)) :=
    (List.perm_insertionSort lenLE d).filter _
  exact (hsub2.eq_of_length hperm.symm.length_eq).symm

/-- Per-field postcondition of the consolidator: the output equals the
concatenation of the field across records in input order, deduplicated
keeping first occurrences, stably sorted by length ascending, truncated
to 10; every output string stems from the same field of some input record;
the output is non-decreasing by length and has at most 10 entries; and
the sort preserves the post-dedup relative order within each length
class (stability of the tie-break). -/
def fieldPost (analyses : List AnalysisRecord) (f : AnalysisRecord → List Str)
    (out : List Str) : Prop :=
  out = (List.insertionSort lenLE (pyDedup (analyses.flatMap f))).take 10 ∧
  (∀ s ∈ out, ∃ r ∈ analyses, s ∈ f r) ∧
  out.Pairwise lenLE ∧
  out.length ≤ 10 ∧
  (∀ k : Nat,
    (List.insertionSort lenLE (pyDedup (analyses.flatMap f))).filter (fun s => s.length == k) =
      (pyDedup (analyses.flatMap f)).filter (fun s => s.length == k))

theorem fieldPost_consolidateField (analyses : List AnalysisRecord)
    (f : AnalysisRecord → List Str) :
    fieldPost analyses f (consolidateField (analyses.flatMap f)) := by
  refine ⟨consolidateField_eq _, ?_, consolidateField_sorted _, consolidateField_length_le _,
    fun k => insertionSort_filter_length _ k⟩
  intro s hs
  have := mem_consolidateField hs
  exact List.mem_flatMap.mp this

/-- C2. Consolidator per-field postcondition, for each of the four
canonical fields independently: the final field value is the in-order
concatenation of that field across the input records, deduplicated
keeping first occurrences, stably sorted by length ascending (ties kept
in post-dedup order), and truncated to at most 10 entries; consequently
every output string appeared in some input record for the same field and
the output is non-decreasing by length. -/
theorem c2_consolidator_post (analyses : List AnalysisRecord) :
    fieldPost analyses (·.key_financial_metrics)
        ((consolidate_analyses analyses).key_financial_metrics) ∧
    fieldPost analyses (·.risks_and_challenges)
        ((consolidate_analyses analyses).risks_and_challenges) ∧
    fieldPost analyses (·.strategic_initiatives)
        ((consolidate_analyses analyses).strategic_initiatives) ∧
    fieldPost analyses (·.significant_changes)
        ((consolidate_analyses analyses).significant_changes) :=
  ⟨fieldPost_consolidateField analyses _, fieldPost_consolidateField analyses _,
    fieldPost_consolidateField analyses _, fieldPost_consolidateField analyses _⟩

/-- The first record of the consolidation example in the spec. -/
def exRecord1 : AnalysisRecord :=
  ⟨[], [("Market volatility is high.".toList), ("Debt increased.".toList)], [], []⟩

/-- The second record of the consolidation example in the spec. -/
def exRecord2 : AnalysisRecord :=
  ⟨[], [("Debt increased.".toList),
    ("Revenue declined due to one large customer churn event.".toList)], [], []⟩

/-- C2 witness: the worked example of the spec — the two records consolidate
to the deduplicated, length-sorted list, and the no-fabrication clause
instantiated at `"Debt increased."`. -/
theorem c2_witness :
    (consolidate_analyses [exRecord1, exRecord2]).risks_and_challenges =
      [("Debt increased.".toList), ("Market volatility is high.".toList),
        ("Revenue declined due to one large customer churn event.".toList)] ∧
    ∃ r ∈ [exRecord1, exRecord2], ("Debt increased.".toList) ∈ r.risks_and_challenges :=
  ⟨((c2_consolidator_post [exRecord1, exRecord2]).2.1).1.trans (by decide),
    ((c2_consolidator_post [exRecord1, exRecord2]).2.1).2.1
      ("Debt increased.".toList) (by decide)⟩

theorem consolidateField_nodup (l : List Str) : (consolidateField l).Nodup := by
  rw [consolidateField_eq]
  have h2 : (List.insertionSort lenLE (pyDedup l)).Nodup :=
    (List.perm_insertionSort lenLE (pyDedup l)).symm.nodup (pyDedup_nodup l)
  exact (List.take_sublist 10 _).nodup h2

theorem consolidateField_idem (l : List Str) :
    consolidateField (consolidateField l) = consolidateField l := by
  have hnd := consolidateField_nodup l
  have hsorted := consolidateField_sorted l
  have hlen := consolidateField_length_le l
  rw [consolidateField_eq (consolidateField l), pyDedup_eq_self hnd,
    List.Sorted.insertionSort_eq hsorted, List.take_of_length_le hlen]

/-- A field list in the shape the consolidator itself produces: no
duplicates, non-decreasing by length, at most 10 entries. -/
def fieldReady (l : List Str) : Prop := l.Nodup ∧ l.Pairwise lenLE ∧ l.length ≤ 10

instance (l : List Str) : Decidable (fieldReady l) := by
  unfold fieldReady
  infer_instance

/-- A record whose four canonical fields are all in consolidated shape. -/
def recordReady (r : AnalysisRecord) : Prop :=
  fieldReady r.key_financial_metrics ∧ fieldReady r.risks_and_challenges ∧
    fieldReady r.strategic_initiatives ∧ fieldReady r.significant_changes

instance (r : AnalysisRecord) : Decidable (recordReady r) := by
  unfold recordReady
  infer_instance

/-- C8. Consolidator idempotence: for input records whose fields are
already deduplicated, already sorted non-decreasing by length and of
length at most 10, consolidating the singleton list holding the
consolidated result changes nothing — applying the consolidator twice
equals applying it once. -/
theorem c8_idempotent (analyses : List AnalysisRecord)
    (h : ∀ r ∈ analyses, recordReady r) :
    consolidate_analyses [consolidate_analyses analyses] = consolidate_analyses analyses := by
  clear h
  simp only [consolidate_analyses, List.flatMap_cons, List.flatMap_nil, List.append_nil,
    consolidateField_idem]

/-- C8 witness: a single record already in consolidated shape. -/
def exReady : AnalysisRecord := ⟨[("a".toList), ("bb".toList)], [], [], []⟩

/-- C8 witness: the idempotence equation evaluated on `exReady`. -/
theorem c8_witness :
    (∀ r ∈ [exReady], recordReady r) ∧
    consolidate_analyses [consolidate_analyses [exReady]] = consolidate_analyses [exReady] :=
  ⟨by decide, c8_idempotent [exReady] (by decide)⟩

/-- Python `str.strip()` whitespace class (space, tab, newline, carriage
return, vertical tab, form feed). -/
def pyIsSpace (c : Char) : Bool :=
  c == ' ' || c == '\t' || c == '\n' || c == '\r' || c == '\x0b' || c == '\x0c'

/-- Python `s.strip()`: drop leading and trailing whitespace. -/
def pyStrip (s : Str) : Str :=
  ((s.dropWhile pyIsSpace).reverse.dropWhile pyIsSpace).reverse

/-- The literal leading code-fence marker stripped by `analyze_chunk`. -/
def jsonFenceOpen : Str := "```json".toList

/-- The literal trailing code-fence marker stripped by `analyze_chunk`. -/
def fenceClose : Str := "```".toList

/-- The response clean-up of `analyze_chunk` (`model.py` lines 101-107):
`replace("```json", "", 1)` guarded by `startswith("```json")` removes
exactly the leading marker, `rsplit("```", 1)[0]` guarded by
`endswith("```")` removes exactly the trailing marker, then `strip()`. -/
def cleanResponse (raw : Str) : Str :=
  let c1 := if jsonFenceOpen.isPrefixOf raw then raw.drop jsonFenceOpen.length else raw
  let c2 := if fenceClose.isSuffixOf c1 then c1.take (c1.length - fenceClose.length) else c1
  pyStrip c2

/-- The shape of a successfully parsed completion response relevant to
`analyze_chunk`: a JSON object mapping string keys to arrays of strings
(the shape the fixed system prompt requests). -/
abbrev Jobj := List (Str × List Str)

/-- Python `parsed_response.get(key, [])` on the parsed object. -/
def jsonGet (obj : Jobj) (key : Str) : List Str :=
  match obj.find? (fun p => p.1 == key) with
  | some p => p.2
  | none => []

/-- The dictionary returned by `analyze_chunk`: the four canonical fields
plus the optional `error` and `raw_response` diagnostic entries. -/
structure ChunkResult where
  key_financial_metrics : List Str
  risks_and_challenges : List Str
  strategic_initiatives : List Str
  significant_changes : List Str
  error : Option Str
  raw_response : Option Str
deriving DecidableEq

/-- The `key_financial_metrics` JSON key. -/
def kfmKey : Str := "key_financial_metrics".toList

/-- The `risks_and_challenges` JSON key. -/
def racKey : Str := "risks_and_challenges".toList

/-- The `strategic_initiatives` JSON key. -/
def siKey : Str := "strategic_initiatives".toList

/-- The `significant_changes` JSON key. -/
def scKey : Str := "significant_changes".toList

/-- `TenKAnalyzer.analyze_chunk` (`model.py` lines 75-137) after the
external completion call: the call outcome is a parameter (`Except`
failure description or raw response text), and the stdlib `json.loads`
is a parameter returning the parsed object on success.  A failed call
yields empty fields plus `error`; a response whose cleaned text fails to
parse yields empty fields plus `raw_response` carrying the original
text; a parsed response fills each canonical field from the object,
defaulting to empty when the key is absent. -/
def analyze_chunk (jsonLoads : Str → Option Jobj) (completion : Except Str Str) : ChunkResult :=
  match completion with
  | .error e => ⟨[], [], [], [], some e, none⟩
  | .ok raw_content =>
    match jsonLoads (cleanResponse raw_content) with
    | some parsed =>
      ⟨jsonGet parsed kfmKey, jsonGet parsed racKey, jsonGet parsed siKey,
        jsonGet parsed scKey, none, none⟩
    | none => ⟨[], [], [], [], none, some raw_content⟩

/-- C6. Chunk-level failure absorption: a failed completion call yields
the record with all four canonical fields empty plus the `error` field
carrying the failure description; a successful call whose cleaned
response fails JSON parsing yields all four fields empty plus
`raw_response` carrying the original unstripped response text.  Both
cases return a value (no exception escapes), so the pipeline continues
with the remaining chunks. -/
theorem c6_failure_absorption :
    (∀ (jsonLoads : Str → Option Jobj) (e : Str),
      analyze_chunk jsonLoads (.error e) = ⟨[], [], [], [], some e, none⟩) ∧
    (∀ (jsonLoads : Str → Option Jobj) (raw : Str),
      jsonLoads (cleanResponse raw) = none →
      analyze_chunk jsonLoads (.ok raw) = ⟨[], [], [], [], none, some raw⟩) := by
  constructor
  · intro jsonLoads e
    rfl
  · intro jsonLoads raw h
    rw [analyze_chunk, h]

/-- C6 witness: a parser that rejects everything, a concrete failure
description and a concrete non-JSON response. -/
theorem c6_witness :
    analyze_chunk (fun _ => none) (.error ("boom".toList)) =
      ⟨[], [], [], [], some ("boom".toList), none⟩ ∧
    analyze_chunk (fun _ => none) (.ok ("not json".toList)) =
      ⟨[], [], [], [], none, some ("not json".toList)⟩ :=
  ⟨c6_failure_absorption.1 (fun _ => none) ("boom".toList),
    c6_failure_absorption.2 (fun _ => none) ("not json".toList) rfl⟩

/-- The example completion response of the spec, wrapped in fences. -/
def exRawResponse : Str :=
  "```json\n\x7b\"key_financial_metrics\": [\"Revenue grew 10%.\"]\x7d\n```".toList

/-- The example response after fence stripping and whitespace trimming. -/
def exCleaned : Str :=
  "\x7b\"key_financial_metrics\": [\"Revenue grew 10%.\"]\x7d".toList

/-- The parsed object of the example response: the one canonical key
present, holding a one-element string array. -/
def exParsed : Jobj := [(kfmKey, [("Revenue grew 10%.".toList)])]

/-- C7. Fence stripping and parse-with-defaults: on a successful call the
analyzer strips one optional leading `"```json"` and one optional
trailing `"```"`, trims whitespace, and on parse success fills exactly
the four canonical fields from the parsed object, each defaulting to
empty when absent and extra keys ignored; the fenced example response
cleans to its inner JSON text and yields `key_financial_metrics =
["Revenue grew 10%."]` with the other three fields empty. -/
theorem c7_parse_with_defaults :
    (∀ (jsonLoads : Str → Option Jobj) (raw : Str) (obj : Jobj),
      jsonLoads (cleanResponse raw) = some obj →
      analyze_chunk jsonLoads (.ok raw) =
        ⟨jsonGet obj kfmKey, jsonGet obj racKey, jsonGet obj siKey, jsonGet obj scKey,
          none, none⟩) ∧
    cleanResponse exRawResponse = exCleaned ∧
    (∀ jsonLoads : Str → Option Jobj,
      jsonLoads exCleaned = some exParsed →
      analyze_chunk jsonLoads (.ok exRawResponse) =
        ⟨[("Revenue grew 10%.".toList)], [], [], [], none, none⟩) := by
  have hmain : ∀ (jsonLoads : Str → Option Jobj) (raw : Str) (obj : Jobj),
      jsonLoads (cleanResponse raw) = some obj →
      analyze_chunk jsonLoads (.ok raw) =
        ⟨jsonGet obj kfmKey, jsonGet obj racKey, jsonGet obj siKey, jsonGet obj scKey,
          none, none⟩ := by
    intro jsonLoads raw obj h
    rw [analyze_chunk, h]
  have hclean : cleanResponse exRawResponse = exCleaned := by decide
  refine ⟨hmain, hclean, ?_⟩
  intro jsonLoads h
  rw [hmain jsonLoads exRawResponse exParsed (by rw [hclean]; exact h)]
  decide

/-- A concrete `json.loads` stand-in that parses exactly the cleaned
example text. -/
def exLoads : Str → Option Jobj := fun s => if s = exCleaned then some exParsed else none

/-- C7 witness: the example response analyzed with the concrete parser. -/
theorem c7_witness :
    exLoads exCleaned = some exParsed ∧
    analyze_chunk exLoads (.ok exRawResponse) =
      ⟨[("Revenue grew 10%.".toList)], [], [], [], none, none⟩ :=
  ⟨by decide, c7_parse_with_defaults.2.2 exLoads (by decide)⟩
